import Mathlib

/-!
Verification of the img2dmg core (src/App.tsx) against its specification.

The embedding models JS strings as lists of characters, the RGBA canvas
buffer as a list of pixels (one entry per group of four bytes of
`imageData.data`), browser `File` objects and object-URL handles as opaque
records, and the React component state (`items`, `busy`, `paletteMode`,
plus the id captured by the in-flight conversion closure) as an explicit
state type with one step function per event handler / effect.
-/

namespace Img2Dmg

/-! ### JS strings as character lists -/

/-- A JS string, modelled as its list of characters. -/
abbrev Str := List Char

/-- Shorthand turning a Lean string literal into its character list. -/
def str (s : String) : Str := s.data

/-- JS `String.prototype.toLowerCase` (ASCII range, which is all the
source relies on: extensions and the literal `"zip"`). -/
def lowerStr (s : Str) : Str := s.map Char.toLower

/-- JS `String.prototype.split` with a one-character separator:
`"a.b".split(".") = ["a","b"]`, `"".split(".") = [""]`; the result is
never the empty array. -/
def splitOnChar (c : Char) : Str → List Str
  | [] => [[]]
  | x :: xs =>
    match splitOnChar c xs with
    | [] => [[x]]
    | h :: t => if x = c then [] :: h :: t else (x :: h) :: t

/-- JS `Array.prototype.join` with a one-character separator. -/
def joinChar (c : Char) : List Str → Str
  | [] => []
  | [x] => x
  | x :: y :: t => x ++ c :: joinChar c (y :: t)

/-- `extFromName` from App.tsx:
`name.toLowerCase().split(".").pop() ?? ""` (the `?? ""` default is the
`getLastD` default; `split` never yields an empty array). -/
def extFromName (name : Str) : Str :=
  (splitOnChar '.' (lowerStr name)).getLastD []

/-- `baseName` from App.tsx: drop the last `split(".")` segment, re-join
with dots, and fall back to the whole name when the join is the (falsy)
empty string. -/
def baseName (name : Str) : Str :=
  let parts := splitOnChar '.' name
  let joined := joinChar '.' parts.dropLast
  if joined = [] then name else joined

/-- `SUPPORTED_EXTS` from App.tsx. -/
def SUPPORTED_EXTS : List Str := [str "png", str "jpg", str "jpeg", str "webp"]

/-- `isSupportedExt` from App.tsx. -/
def isSupportedExt (ext : Str) : Bool := SUPPORTED_EXTS.contains ext

/-! ### Palettes and the quantizer -/

/-- One palette entry, as in `DMG_PALETTE` / `GRAY_PALETTE`. -/
structure RGB where
  r : Nat
  g : Nat
  b : Nat
deriving DecidableEq

/-- `DMG_PALETTE` from App.tsx. -/
def DMG_PALETTE : List RGB :=
  [⟨15, 56, 15⟩, ⟨48, 98, 48⟩, ⟨139, 172, 15⟩, ⟨155, 188, 15⟩]

/-- `GRAY_PALETTE` from App.tsx. -/
def GRAY_PALETTE : List RGB :=
  [⟨15, 15, 15⟩, ⟨86, 86, 86⟩, ⟨170, 170, 170⟩, ⟨240, 240, 240⟩]

/-- One RGBA pixel of the canvas buffer (`data[i] .. data[i+3]`). -/
structure Pixel where
  r : Nat
  g : Nat
  b : Nat
  a : Nat
deriving DecidableEq

/-! #### The program's binary64 luminance arithmetic

`convertToDmg` evaluates
`0.2126 * data[i] + 0.7152 * data[i+1] + 0.0722 * data[i+2]` in IEEE-754
binary64 ("double") arithmetic. Every double is an exactly representable
dyadic rational, and each `*` and `+` rounds its exact result to 53
significant bits (round to nearest, ties to even), so the pipeline is
modelled exactly below: a value is `num * 2 ^ exp`, each operation is
performed exactly and then rounded by `fl53` (no overflow, underflow or
sign issues can occur at these magnitudes). -/

/-- Binary digit count, with fuel covering every quantity arising in
this pipeline (all numerators stay far below `2 ^ 256`). -/
def bitsAux : Nat → Nat → Nat
  | 0, _ => 0
  | fuel + 1, n => if n = 0 then 0 else bitsAux fuel (n / 2) + 1

/-- Number of binary digits of `n`. -/
def bits (n : Nat) : Nat := bitsAux 256 n

/-- A nonnegative dyadic rational `num * 2 ^ exp`. -/
structure FP where
  num : Nat
  exp : Int
deriving DecidableEq

/-- Binary64 rounding: keep 53 significant bits, round to nearest, ties
to even. -/
def fl53 (x : FP) : FP :=
  let b := bits x.num
  if b ≤ 53 then x
  else
    let s := b - 53
    let q := x.num / 2 ^ s
    let r := x.num % 2 ^ s
    let half := 2 ^ (s - 1)
    let q2 := if half < r ∨ (r = half ∧ q % 2 = 1) then q + 1 else q
    ⟨q2, x.exp + s⟩

/-- Exact product of dyadics (its binary64 rounding is applied
separately). -/
def mulFP (x y : FP) : FP := ⟨x.num * y.num, x.exp + y.exp⟩

/-- Exact sum of dyadics (its binary64 rounding is applied
separately). -/
def addFP (x y : FP) : FP :=
  let e := min x.exp y.exp
  ⟨x.num * 2 ^ (x.exp - e).toNat + y.num * 2 ^ (y.exp - e).toNat, e⟩

/-- An integer channel value as a double (exact for 0..255). -/
def ofNatFP (n : Nat) : FP := ⟨n, 0⟩

/-- Division by `2 ^ k`, exact in binary64 (only the exponent moves;
no rounding, since the mantissa is unchanged and no underflow occurs
here). -/
def divPow2 (k : Nat) (x : FP) : FP := ⟨x.num, x.exp - k⟩

/-- `Math.floor` of a nonnegative double. -/
def floorFP (x : FP) : Nat :=
  if 0 ≤ x.exp then x.num * 2 ^ x.exp.toNat else x.num / 2 ^ (-x.exp).toNat

/-- The double literal `0.2126`: the binary64 value nearest to
`2126 / 10000`. -/
def C_2126 : FP := ⟨7659722246231740, -55⟩

/-- The double literal `0.7152`. -/
def C_7152 : FP := ⟨6441948906990757, -53⟩

/-- The double literal `0.0722`. -/
def C_0722 : FP := ⟨5202558289538397, -56⟩

/-- Each constant is a normalized 53-bit mantissa lying strictly within
half an ulp of its decimal literal: `(n * 2 ^ s - m * 10000).natAbs * 2
< 10000` is `|n / 10000 - m * 2 ^ (-s)| < 2 ^ (-(s+1))` scaled by
`10000 * 2 ^ s`. Hence each is the correctly rounded binary64 of its
literal (no tie is possible: the decimals have a factor 5 in lowest
terms, so they are not dyadic midpoints). -/
theorem float_constants_correctly_rounded :
    (2 ^ 52 ≤ C_2126.num ∧ C_2126.num < 2 ^ 53 ∧
      ((2126 : Int) * 2 ^ 55 - (C_2126.num : Int) * 10000).natAbs * 2 < 10000) ∧
    (2 ^ 52 ≤ C_7152.num ∧ C_7152.num < 2 ^ 53 ∧
      ((7152 : Int) * 2 ^ 53 - (C_7152.num : Int) * 10000).natAbs * 2 < 10000) ∧
    (2 ^ 52 ≤ C_0722.num ∧ C_0722.num < 2 ^ 53 ∧
      ((722 : Int) * 2 ^ 56 - (C_0722.num : Int) * 10000).natAbs * 2 < 10000) := by
  refine ⟨⟨?_, ?_, ?_⟩, ⟨?_, ?_, ?_⟩, ⟨?_, ?_, ?_⟩⟩ <;> decide

/-- The luminance computed by `convertToDmg`
(`0.2126 * data[i] + 0.7152 * data[i+1] + 0.0722 * data[i+2]`), with
each product and each (left-associated) sum rounded exactly as binary64
rounds it. -/
def lumFloat (p : Pixel) : FP :=
  fl53 (addFP
    (fl53 (addFP (fl53 (mulFP C_2126 (ofNatFP p.r)))
                 (fl53 (mulFP C_7152 (ofNatFP p.g)))))
    (fl53 (mulFP C_0722 (ofNatFP p.b))))

/-- The band index computed by `convertToDmg`:
`Math.min(3, Math.max(0, Math.floor(lum / 64)))` in binary64. -/
def levelFloat (p : Pixel) : Nat :=
  min 3 (max 0 (floorFP (fl53 (divPow2 6 (lumFloat p)))))

/-- The body of the pixel loop of `convertToDmg`: transparent pixels are
skipped, all others get the palette shade at their band index, alpha kept. -/
def quantizePixel (palette : List RGB) (p : Pixel) : Pixel :=
  if p.a = 0 then p
  else
    let shade := palette.getD (levelFloat p) ⟨0, 0, 0⟩
    { r := shade.r, g := shade.g, b := shade.b, a := p.a }

/-- The pixel loop of `convertToDmg` over the whole RGBA buffer. -/
def convertBuffer (palette : List RGB) (data : List Pixel) : List Pixel :=
  data.map (quantizePixel palette)

/-- Modelled from the spec: the exact BT.709 luminance
`L = 0.2126 R + 0.7152 G + 0.0722 B` the claim states, in exact (real)
arithmetic. -/
def lumSpec (p : Pixel) : ℚ :=
  0.2126 * (p.r : ℚ) + 0.7152 * (p.g : ℚ) + 0.0722 * (p.b : ℚ)

/-- Modelled from the spec: the claim's band index
`idx = clamp(floor(L / 64), 0, 3)` over the exact luminance. -/
def levelSpec (p : Pixel) : ℤ :=
  min 3 (max 0 ⌊lumSpec p / 64⌋)

/-- The spec-side band index as pure integer arithmetic: the exact
luminance is `(2126 R + 7152 G + 722 B) / 10000`, so flooring its
quotient by 64 is integer division by 640000. -/
theorem levelSpec_eq_int (p : Pixel) :
    levelSpec p =
      min 3 (max 0 ((2126 * (p.r : ℤ) + 7152 * (p.g : ℤ) + 722 * (p.b : ℤ)) / 640000)) := by
  have hq : lumSpec p / 64 =
      (((2126 * (p.r : ℤ) + 7152 * (p.g : ℤ) + 722 * (p.b : ℤ) : ℤ) : ℚ)) /
        ((640000 : ℕ) : ℚ) := by
    rw [lumSpec]
    have h1 : (0.2126 : ℚ) = 2126 / 10000 := by norm_num
    have h2 : (0.7152 : ℚ) = 7152 / 10000 := by norm_num
    have h3 : (0.0722 : ℚ) = 722 / 10000 := by norm_num
    rw [h1, h2, h3]
    push_cast
    ring
  rw [levelSpec, hq, Rat.floor_intCast_div_natCast]
  norm_num

/-- **C1** (code-bug evidence): at the pixel R=12, G=175, B=4 the exact
luminance of the claim's formula is exactly 128, so the claimed band
index is `clamp(floor(128 / 64), 0, 3) = 2`; but the program's binary64
evaluation of the same expression lands just below 128 and
`convertToDmg` assigns band 1, writing palette entry 1 instead of entry
2. On the claim's three anchor points the binary64 pipeline and the
exact formula agree (0, 1 and 3). -/
theorem quantizer_boundary_code_bug :
    levelFloat ⟨12, 175, 4, 255⟩ = 1 ∧
    lumSpec ⟨12, 175, 4, 255⟩ = 128 ∧
    levelSpec ⟨12, 175, 4, 255⟩ = 2 ∧
    quantizePixel DMG_PALETTE ⟨12, 175, 4, 255⟩ = ⟨48, 98, 48, 255⟩ ∧
    levelFloat ⟨63, 63, 63, 255⟩ = 0 ∧
    levelFloat ⟨64, 64, 64, 255⟩ = 1 ∧
    levelFloat ⟨255, 255, 255, 255⟩ = 3 ∧
    levelSpec ⟨63, 63, 63, 255⟩ = 0 ∧
    levelSpec ⟨64, 64, 64, 255⟩ = 1 ∧
    levelSpec ⟨255, 255, 255, 255⟩ = 3 := by
  refine ⟨by decide, ?_, ?_, by decide, by decide, by decide, by decide, ?_, ?_, ?_⟩
  · rw [lumSpec]
    norm_num
  · rw [levelSpec_eq_int]; decide
  · rw [levelSpec_eq_int]; decide
  · rw [levelSpec_eq_int]; decide
  · rw [levelSpec_eq_int]; decide

/-- **C2**: a fully transparent pixel (alpha = 0) of the input buffer is
returned bit-identical at the same position of the output buffer. -/
theorem quantizer_preserves_transparent :
    ∀ (palette : List RGB) (data : List Pixel) (i : Nat) (p : Pixel),
      data[i]? = some p → p.a = 0 →
      (convertBuffer palette data)[i]? = some p := by
  intro palette data i p hg ha
  rw [convertBuffer, List.getElem?_map, hg, Option.map_some']
  simp [quantizePixel, ha]

/-- Witness for C2 at a concrete one-pixel buffer whose pixel has
alpha 0 and a colour that is in no palette. -/
theorem quantizer_preserves_transparent_witness :
    ([Pixel.mk 1 2 3 0])[0]? = some (Pixel.mk 1 2 3 0) ∧
    (Pixel.mk 1 2 3 0).a = 0 ∧
    (convertBuffer DMG_PALETTE [Pixel.mk 1 2 3 0])[0]? = some (Pixel.mk 1 2 3 0) :=
  ⟨rfl, rfl, quantizer_preserves_transparent DMG_PALETTE [⟨1, 2, 3, 0⟩] 0 ⟨1, 2, 3, 0⟩ rfl rfl⟩

/-! ### Properties of the string helpers -/

/-- `split` never returns the empty array. -/
theorem splitOnChar_ne_nil (c : Char) (l : Str) : splitOnChar c l ≠ [] := by
  cases l with
  | nil => simp [splitOnChar]
  | cons x xs =>
    rw [splitOnChar]
    cases h : splitOnChar c xs with
    | nil => simp
    | cons a t =>
      dsimp only
      split <;> simp

/-- Unfolding equation for `splitOnChar` on a cons cell, stated through
`headD`/`tail` so the inner match does not block rewriting. -/
theorem splitOnChar_cons (c x : Char) (xs : Str) :
    splitOnChar c (x :: xs) =
      if x = c then [] :: splitOnChar c xs
      else (x :: (splitOnChar c xs).headD []) :: (splitOnChar c xs).tail := by
  rw [splitOnChar]
  cases h : splitOnChar c xs with
  | nil => exact absurd h (splitOnChar_ne_nil c xs)
  | cons a t => by_cases hx : x = c <;> simp [hx]

/-- Splitting at an explicit separator occurrence splits the two sides
independently. -/
theorem splitOnChar_append_sep (c : Char) (xs ys : Str) :
    splitOnChar c (xs ++ c :: ys) = splitOnChar c xs ++ splitOnChar c ys := by
  induction xs with
  | nil =>
    rw [List.nil_append, splitOnChar_cons, if_pos rfl]
    rfl
  | cons x t ih =>
    rw [List.cons_append, splitOnChar_cons, splitOnChar_cons, ih]
    by_cases hx : x = c
    · rw [if_pos hx, if_pos hx, List.cons_append]
    · rw [if_neg hx, if_neg hx]
      cases h : splitOnChar c t with
      | nil => exact absurd h (splitOnChar_ne_nil c t)
      | cons a t2 => simp

/-- A list without the separator splits into itself alone. -/
theorem splitOnChar_of_not_mem {c : Char} {l : Str} (h : c ∉ l) :
    splitOnChar c l = [l] := by
  induction l with
  | nil => rfl
  | cons x xs ih =>
    have hx : x ≠ c := fun he => h (he ▸ List.mem_cons_self x xs)
    have hxs : c ∉ xs := fun hm => h (List.mem_cons_of_mem x hm)
    rw [splitOnChar_cons, if_neg hx, ih hxs]
    rfl

/-- `join(".")` is a left inverse of `split(".")`. -/
theorem joinChar_splitOnChar (c : Char) (l : Str) :
    joinChar c (splitOnChar c l) = l := by
  induction l with
  | nil => rfl
  | cons x xs ih =>
    rw [splitOnChar_cons]
    cases h : splitOnChar c xs with
    | nil => exact absurd h (splitOnChar_ne_nil c xs)
    | cons a t =>
      rw [h] at ih
      by_cases hx : x = c
      · rw [if_pos hx, hx, joinChar, ih]
        rfl
      · rw [if_neg hx]
        simp only [List.headD_cons, List.tail_cons]
        cases t with
        | nil =>
          rw [joinChar] at ih
          rw [joinChar, ih]
        | cons b t2 =>
          rw [joinChar] at ih
          rw [joinChar, List.cons_append, ih]

/-- Every list containing `c` splits around the last occurrence of `c`. -/
theorem exists_last_sep {c : Char} {l : Str} (h : c ∈ l) :
    ∃ xs ys, l = xs ++ c :: ys ∧ c ∉ ys := by
  induction l with
  | nil => cases h
  | cons x t ih =>
    by_cases ht : c ∈ t
    · obtain ⟨xs, ys, rfl, hys⟩ := ih ht
      exact ⟨x :: xs, ys, rfl, hys⟩
    · have hx : x = c := by
        rcases List.mem_cons.mp h with h1 | h2
        · exact h1.symm
        · exact absurd h2 ht
      exact ⟨[], t, by simp [hx], ht⟩

/-- `takeWhile` over a block of keepers followed by a stopper. -/
theorem takeWhile_keepers (p : Char → Bool) (A B : Str) (x : Char)
    (hA : ∀ a ∈ A, p a = true) (hx : p x = false) :
    (A ++ x :: B).takeWhile p = A := by
  induction A with
  | nil => simp [List.takeWhile, hx]
  | cons a t ih =>
    have ha : p a = true := hA a (List.mem_cons_self a t)
    rw [List.cons_append, List.takeWhile_cons, ha]
    simp only [ite_true]
    rw [ih fun b hb => hA b (List.mem_cons_of_mem a hb)]

/-- `dropWhile` over a block of keepers followed by a stopper. -/
theorem dropWhile_keepers (p : Char → Bool) (A B : Str) (x : Char)
    (hA : ∀ a ∈ A, p a = true) (hx : p x = false) :
    (A ++ x :: B).dropWhile p = x :: B := by
  induction A with
  | nil => simp [List.dropWhile, hx]
  | cons a t ih =>
    have ha : p a = true := hA a (List.mem_cons_self a t)
    rw [List.cons_append, List.dropWhile_cons, ha]
    simp only [ite_true]
    exact ih fun b hb => hA b (List.mem_cons_of_mem a hb)

/-- `takeWhile` keeps a list all of whose elements pass. -/
theorem takeWhile_all (p : Char → Bool) (A : Str) (hA : ∀ a ∈ A, p a = true) :
    A.takeWhile p = A := by
  induction A with
  | nil => rfl
  | cons a t ih =>
    rw [List.takeWhile_cons, hA a (List.mem_cons_self a t)]
    simp only [ite_true]
    rw [ih fun b hb => hA b (List.mem_cons_of_mem a hb)]

/-- ASCII lowercasing fixes `'.'` and maps no other character to it. -/
theorem toLower_eq_dot_iff (c : Char) : c.toLower = '.' ↔ c = '.' := by
  constructor
  · intro h
    by_cases hc : c.toNat ≥ 65 ∧ c.toNat ≤ 90
    · exfalso
      have hv : Nat.isValidChar (c.toNat + 32) := Or.inl (by omega)
      have he : (Char.ofNat (c.toNat + 32)).toNat = c.toNat + 32 := by
        rw [Char.ofNat, dif_pos hv]
        rfl
      simp only [Char.toLower] at h
      rw [if_pos hc] at h
      have h46 := congrArg Char.toNat h
      rw [he] at h46
      have : ('.' : Char).toNat = 46 := rfl
      omega
    · simp only [Char.toLower] at h
      rwa [if_neg hc] at h
  · intro h
    rw [h]
    rfl

/-- `'.'` occurs in the lowercased name iff it occurs in the name. -/
theorem dot_mem_lowerStr_iff (l : Str) : '.' ∈ lowerStr l ↔ '.' ∈ l := by
  constructor
  · intro h
    obtain ⟨a, ha, hla⟩ := List.mem_map.mp h
    exact ((toLower_eq_dot_iff a).mp hla) ▸ ha
  · intro h
    exact List.mem_map.mpr ⟨'.', h, rfl⟩

/-- Modelled from the spec's wording for the extension rule: the
substring after the last occurrence of `c` (the whole of `l` when `c`
does not occur in it). -/
def suffixAfterLast (c : Char) (l : Str) : Str :=
  (l.reverse.takeWhile (fun x => x != c)).reverse

/-- **C5 (amended)**: the extension used for validation is the lowercased
substring after the last `.` of the name; when the name has no `.` it is
the entire lowercased name (not the empty string). -/
theorem extFromName_after_last_dot :
    ∀ name : Str,
      extFromName name = suffixAfterLast '.' (lowerStr name) ∧
      ('.' ∉ name → extFromName name = lowerStr name) := by
  intro name
  by_cases hd : '.' ∈ lowerStr name
  · obtain ⟨xs, ys, hdec, hys⟩ := exists_last_sep hd
    constructor
    · rw [extFromName, hdec, splitOnChar_append_sep, splitOnChar_of_not_mem hys,
          List.getLastD_concat, suffixAfterLast]
      have hrev : (xs ++ '.' :: ys).reverse = ys.reverse ++ '.' :: xs.reverse := by
        rw [List.reverse_append, List.reverse_cons, List.append_assoc,
            List.singleton_append]
      rw [hrev, takeWhile_keepers _ _ _ _
            (fun a ha => by
              simp only [bne_iff_ne, ne_eq, decide_eq_true_eq]
              exact fun he => hys (he ▸ List.mem_reverse.mp ha))
            (by simp), List.reverse_reverse]
    · intro hnd
      exact absurd ((dot_mem_lowerStr_iff name).mp hd) hnd
  · have hsplit := splitOnChar_of_not_mem hd
    constructor
    · rw [extFromName, hsplit, suffixAfterLast,
          takeWhile_all _ _
            (fun a ha => by
              simp only [bne_iff_ne, ne_eq, decide_eq_true_eq]
              exact fun he => hd (he ▸ List.mem_reverse.mp ha)),
          List.reverse_reverse]
      rfl
    · intro _
      rw [extFromName, hsplit]
      rfl

/-- Witness for the amended C5 at the dot-free name `README`. -/
theorem extFromName_after_last_dot_witness :
    ('.' ∉ str "README") ∧ extFromName (str "README") = lowerStr (str "README") :=
  ⟨by decide, (extFromName_after_last_dot (str "README")).2 (by decide)⟩

/-- **C5 counterexample**: for a name with no `.` the computed extension
is the whole lowercased name, not the empty string as the claim states. -/
theorem extFromName_no_dot_not_empty :
    extFromName (str "README") = str "readme" ∧ extFromName (str "README") ≠ [] := by
  constructor
  · decide
  · decide

/-! ### Palette mode and export filenames -/

/-- The `PaletteMode` union type from App.tsx. -/
inductive PaletteMode
  | dmg
  | gray
deriving DecidableEq

/-- The export suffix computed at each download site:
`paletteMode === "gray" ? "-gs" : "-dmg"`. -/
def suffixFor (mode : PaletteMode) : Str :=
  if mode = PaletteMode.gray then str "-gs" else str "-dmg"

/-- The export filename built at each download site:
`` `${baseName(item.name)}${suffix}.png` ``. -/
def exportFileName (mode : PaletteMode) (name : Str) : Str :=
  baseName name ++ suffixFor mode ++ str ".png"

/-- Modelled from the spec's wording: the source name without its final
extension (the name itself when it has no `.`). -/
def stripLastExt (name : Str) : Str :=
  if '.' ∈ name then ((name.reverse.dropWhile (fun x => x != '.')).tail).reverse
  else name

/-- Reversing a list around the last occurrence of a separator. -/
theorem reverse_append_sep (xs ys : Str) (c : Char) :
    (xs ++ c :: ys).reverse = ys.reverse ++ c :: xs.reverse := by
  rw [List.reverse_append, List.reverse_cons, List.append_assoc, List.singleton_append]

/-- The code's `baseName` strips the final extension, except that it
falls back to the whole name when stripping would leave the empty
string. -/
theorem baseName_eq (name : Str) :
    baseName name = if stripLastExt name = [] then name else stripLastExt name := by
  by_cases hd : '.' ∈ name
  · obtain ⟨xs, ys, hdec, hys⟩ := exists_last_sep hd
    have hstrip : stripLastExt name = xs := by
      rw [stripLastExt, if_pos hd, hdec, reverse_append_sep,
          dropWhile_keepers _ _ _ _
            (fun a ha => by
              simp only [bne_iff_ne, ne_eq, decide_eq_true_eq]
              exact fun he => hys (he ▸ List.mem_reverse.mp ha))
            (by simp),
          List.tail_cons, List.reverse_reverse]
    have hparts : splitOnChar '.' name = splitOnChar '.' xs ++ [ys] := by
      rw [hdec, splitOnChar_append_sep, splitOnChar_of_not_mem hys]
    simp only [baseName]
    rw [hparts, List.dropLast_concat, joinChar_splitOnChar, hstrip]
  · have hsplit := splitOnChar_of_not_mem hd
    simp only [baseName]
    rw [hsplit, stripLastExt, if_neg hd]
    simp [List.dropLast_single, joinChar]

/-- **C7 (amended)**: the export filename is the source name without its
final extension — or the full source name when stripping the extension
would leave the empty string — plus `-gs`/`-dmg` by the palette mode
passed at export time, plus the fixed `.png` extension; in particular
`photo.JPG` exports as `photo-gs.png` under gray mode and
`photo-dmg.png` under dmg mode. -/
theorem exportFileName_spec :
    (∀ (mode : PaletteMode) (name : Str),
      exportFileName mode name =
        (if stripLastExt name = [] then name else stripLastExt name) ++
          suffixFor mode ++ str ".png") ∧
    exportFileName PaletteMode.gray (str "photo.JPG") = str "photo-gs.png" ∧
    exportFileName PaletteMode.dmg (str "photo.JPG") = str "photo-dmg.png" := by
  refine ⟨?_, by decide, by decide⟩
  intro mode name
  rw [exportFileName, baseName_eq]

/-- **C7 counterexample**: for the done job named `.png` under gray mode
the code exports `.png-gs.png`, not the claim's
name-without-extension `-gs.png`. -/
theorem exportFileName_dotfile_counterexample :
    exportFileName PaletteMode.gray (str ".png") = str ".png-gs.png" ∧
    exportFileName PaletteMode.gray (str ".png") ≠
      stripLastExt (str ".png") ++ str "-gs" ++ str ".png" := by
  constructor
  · decide
  · decide

/-! ### Files, zip entries and jobs -/

/-- A browser `File`: a name plus an opaque content handle. -/
structure FileRec where
  name : Str
  content : Nat
deriving DecidableEq

/-- One entry of a loaded zip (`Object.values(zip.files)`): its name, its
directory flag and an opaque content handle. -/
structure ZipEntry where
  name : Str
  dir : Bool
  content : Nat
deriving DecidableEq

/-- The three early-return toasts of `handleZip`, in source order:
"Zip is empty.", "Zip contains unsupported image types.",
"Zip must contain only one image extension type.". -/
inductive ZipFailure
  | emptyArchive
  | unsupportedExtension
  | mixedExtension
deriving DecidableEq

/-- `handleZip` from App.tsx, as the validation/extraction pipeline: it
filters out directory entries, validates, and on success extracts one
`File` (named after the entry) per entry; every toast path returns
before any file is produced. -/
def handleZip (zipFiles : List ZipEntry) : Except ZipFailure (List FileRec) :=
  match zipFiles.filter (fun e => !e.dir) with
  | [] => Except.error ZipFailure.emptyArchive
  | e0 :: rest =>
    let firstExt := extFromName e0.name
    if !(isSupportedExt firstExt) then Except.error ZipFailure.unsupportedExtension
    else if (e0 :: rest).any (fun e => extFromName e.name != firstExt) then
      Except.error ZipFailure.mixedExtension
    else Except.ok ((e0 :: rest).map (fun e => FileRec.mk e.name e.content))

/-- What `handleFiles` does with a dropped batch: whether the
"Drop images or a zip of images to convert." toast fires, which files go
through `handleZip`, and which files are enqueued directly. -/
structure HandleFilesResult where
  nothingNotice : Bool
  zipsHandled : List FileRec
  imagesEnqueued : List FileRec
deriving DecidableEq

/-- `handleFiles` from App.tsx: split the batch into zips and supported
images, toast and stop when both are empty, otherwise run the zips
through `handleZip` and enqueue the images; anything else is ignored. -/
def handleFiles (files : List FileRec) : HandleFilesResult :=
  let zips := files.filter (fun f => extFromName f.name == str "zip")
  let images := files.filter (fun f => isSupportedExt (extFromName f.name))
  if zips = [] ∧ images = [] then ⟨true, [], []⟩
  else ⟨false, zips, images⟩

/-- The `Status` union type from App.tsx. -/
inductive Status
  | queued
  | processing
  | done
  | error
deriving DecidableEq

/-- The `Item` record from App.tsx (a conversion Job). Optional fields
are `Option`; `blobUrl` is an opaque object-URL handle. -/
structure Item where
  id : Nat
  name : Str
  ext : Str
  file : FileRec
  status : Status
  blobUrl : Option Nat
  width : Option Nat
  height : Option Nat
  error : Option Str
  selected : Bool
deriving DecidableEq

/-- `doneItems` from App.tsx. -/
def doneItems (items : List Item) : List Item :=
  items.filter (fun i => i.status == Status.done)

/-- `selectedItems` from App.tsx. -/
def selectedItems (items : List Item) : List Item :=
  (doneItems items).filter (fun i => i.selected)

/-! ### Export manager -/

/-- The observable effect of a batch download: the archive entry names
written into the zip and the archive's filename. -/
structure ExportAction where
  entryNames : List Str
  archiveName : Str
deriving DecidableEq

/-- `downloadSelectedZip` from App.tsx: an early return (no archive)
when nothing is selected, otherwise one entry per selected item that
still has a result URL. -/
def downloadSelectedZip (mode : PaletteMode) (items : List Item) : Option ExportAction :=
  if (selectedItems items).length = 0 then none
  else some
    { entryNames :=
        ((selectedItems items).filter (fun i => i.blobUrl.isSome)).map
          (fun i => exportFileName mode i.name),
      archiveName :=
        if mode = PaletteMode.gray then str "img2dmg-selected-gs.zip"
        else str "img2dmg-selected.zip" }

/-- `downloadAllZip` from App.tsx. -/
def downloadAllZip (mode : PaletteMode) (items : List Item) : Option ExportAction :=
  if (doneItems items).length = 0 then none
  else some
    { entryNames :=
        ((doneItems items).filter (fun i => i.blobUrl.isSome)).map
          (fun i => exportFileName mode i.name),
      archiveName :=
        if mode = PaletteMode.gray then str "img2dmg-all-gs.zip"
        else str "img2dmg-all.zip" }

/-! ### Palette-mode reset -/

/-- The per-item body of the `paletteMode` reset effect: back to
`queued`, all result fields cleared, everything else spread through. -/
def resetItem (i : Item) : Item :=
  { i with status := Status.queued, blobUrl := none, width := none,
           height := none, error := none }

/-- The new item list produced by the `paletteMode` reset effect. -/
def modeResetItems (items : List Item) : List Item :=
  items.map resetItem

/-- The object-URL handles revoked by the `paletteMode` reset effect
(every present `blobUrl`). -/
def modeResetReleased (items : List Item) : List Nat :=
  items.filterMap (fun i => i.blobUrl)

/-! ### The job queue as a state machine -/

/-- `paletteMode` toggle: `prev === "dmg" ? "gray" : "dmg"`. -/
def flipMode : PaletteMode → PaletteMode
  | PaletteMode.dmg => PaletteMode.gray
  | PaletteMode.gray => PaletteMode.dmg

/-- The component state driving the queue: the item list, the `busy`
flag together with the `next.id` captured by the in-flight conversion
closure (`inFlight`), the palette mode, and a counter supplying the
fresh ids `crypto.randomUUID` guarantees. -/
structure AppState where
  items : List Item
  inFlight : Option Nat
  mode : PaletteMode
  nextId : Nat
deriving DecidableEq

/-- The initial component state. -/
def initState : AppState :=
  { items := [], inFlight := none, mode := PaletteMode.dmg, nextId := 0 }

/-- The item built by `enqueueFiles` for one accepted file. -/
def mkItem (id : Nat) (f : FileRec) : Item :=
  { id := id, name := f.name, ext := extFromName f.name, file := f,
    status := Status.queued, blobUrl := none, width := none, height := none,
    error := none, selected := false }

/-- `enqueueFiles` for one file (a batch is a sequence of these steps):
append a fresh queued item. -/
def enqueueStep (f : FileRec) (s : AppState) : AppState :=
  { s with items := s.items ++ [mkItem s.nextId f], nextId := s.nextId + 1 }

/-- The queue-watcher effect: when idle, find the first queued item and
mark it `processing` synchronously (capturing its id as in-flight). -/
def pickStep (s : AppState) : AppState :=
  match s.inFlight with
  | some _ => s
  | none =>
    match s.items.find? (fun i => i.status == Status.queued) with
    | none => s
    | some next =>
      { s with inFlight := some next.id,
               items := s.items.map (fun i =>
                 if i.id == next.id then { i with status := Status.processing } else i) }

/-- The `.then` handler of the in-flight conversion: write the result
onto the captured id and become idle. -/
def completeStep (w h url : Nat) (s : AppState) : AppState :=
  match s.inFlight with
  | none => s
  | some j =>
    { s with inFlight := none,
             items := s.items.map (fun i =>
               if i.id == j then
                 { i with status := Status.done, blobUrl := some url,
                          width := some w, height := some h }
               else i) }

/-- The `.catch` handler of the in-flight conversion: record the error
message onto the captured id and become idle. -/
def failStep (msg : Str) (s : AppState) : AppState :=
  match s.inFlight with
  | none => s
  | some j =>
    { s with inFlight := none,
             items := s.items.map (fun i =>
               if i.id == j then { i with status := Status.error, error := some msg }
               else i) }

/-- The palette-mode toggle: flip the mode; the reset effect re-queues
every item (`busy` and the in-flight closure are untouched). -/
def toggleStep (s : AppState) : AppState :=
  { s with mode := flipMode s.mode, items := modeResetItems s.items }

/-- `clearAll`: drop every item (`busy` is untouched). -/
def clearStep (s : AppState) : AppState :=
  { s with items := [] }

/-- Reachable component states under the queue events. -/
inductive Reach : AppState → Prop
  | init : Reach initState
  | enqueue (f : FileRec) {s : AppState} : Reach s → Reach (enqueueStep f s)
  | pick {s : AppState} : Reach s → Reach (pickStep s)
  | complete (w h url : Nat) {s : AppState} : Reach s → Reach (completeStep w h url s)
  | fail (msg : Str) {s : AppState} : Reach s → Reach (failStep msg s)
  | toggle {s : AppState} : Reach s → Reach (toggleStep s)
  | clear {s : AppState} : Reach s → Reach (clearStep s)

/-- The number of items currently in `processing` state. -/
def procCount (items : List Item) : Nat :=
  (items.filter (fun i => i.status == Status.processing)).length

/-- A duplicate-free list all of whose elements are equal has at most
one element. -/
theorem length_le_one_of_nodup_const {l : List Nat} {j : Nat}
    (hnd : l.Nodup) (hall : ∀ x ∈ l, x = j) : l.length ≤ 1 := by
  match l with
  | [] => simp
  | [a] => simp
  | a :: b :: t =>
    exfalso
    have ha : a = j := hall a (by simp)
    have hb : b = j := hall b (by simp)
    rw [List.nodup_cons] at hnd
    exact hnd.1 (by simp [ha, hb])

/-- The inductive queue invariant: ids are duplicate-free and below the
freshness counter, and every `processing` item is the in-flight one. -/
def QueueInv (s : AppState) : Prop :=
  (s.items.map (fun i => i.id)).Nodup ∧
  (∀ i ∈ s.items, i.id < s.nextId) ∧
  (∀ i ∈ s.items, i.status = Status.processing → s.inFlight = some i.id)

/-- A conditional update that does not touch ids leaves the id list of
the item list unchanged. -/
theorem map_ids_of_preserve (f : Item → Item) (hf : ∀ i, (f i).id = i.id)
    (items : List Item) :
    (items.map f).map (fun i => i.id) = items.map (fun i => i.id) := by
  rw [List.map_map]
  exact List.map_congr_left fun i _ => hf i

/-- The invariant bounds the processing count by one. -/
theorem procCount_le_one (s : AppState) (h : QueueInv s) : procCount s.items ≤ 1 := by
  obtain ⟨hnd, _, hproc⟩ := h
  rw [procCount]
  cases hf : s.inFlight with
  | none =>
    have hnil : s.items.filter (fun i => i.status == Status.processing) = [] := by
      rw [List.filter_eq_nil_iff]
      intro i hi hpi
      have : s.inFlight = some i.id := hproc i hi (by simpa using hpi)
      rw [hf] at this
      exact Option.noConfusion this
    rw [hnil]
    simp
  | some j =>
    have hsub : ((s.items.filter (fun i => i.status == Status.processing)).map
        (fun i => i.id)).Nodup :=
      List.Nodup.sublist (List.Sublist.map _ (List.filter_sublist _)) hnd
    have hall : ∀ x ∈ (s.items.filter (fun i => i.status == Status.processing)).map
        (fun i => i.id), x = j := by
      intro x hx
      obtain ⟨i, hi, rfl⟩ := List.mem_map.mp hx
      obtain ⟨hmem, hpi⟩ := List.mem_filter.mp hi
      have := hproc i hmem (by simpa using hpi)
      rw [hf] at this
      exact (Option.some_inj.mp this).symm
    have := length_le_one_of_nodup_const hsub hall
    simpa using this

/-- The initial state satisfies the invariant. -/
theorem inv_init : QueueInv initState := by
  refine ⟨by simp [initState], ?_, ?_⟩ <;> intro i hi <;> simp [initState] at hi

/-- Enqueueing a fresh item preserves the invariant. -/
theorem inv_enqueue (f : FileRec) (s : AppState) (h : QueueInv s) :
    QueueInv (enqueueStep f s) := by
  obtain ⟨hnd, hlt, hproc⟩ := h
  refine ⟨?_, ?_, ?_⟩
  · rw [enqueueStep]
    simp only [List.map_append]
    rw [List.nodup_append]
    refine ⟨hnd, by simp, ?_⟩
    intro x hx
    obtain ⟨i, hi, rfl⟩ := List.mem_map.mp hx
    have := hlt i hi
    simp only [List.map_cons, List.map_nil, List.mem_singleton, mkItem]
    omega
  · intro i hi
    rw [enqueueStep] at hi ⊢
    rcases List.mem_append.mp hi with hold | hnew
    · have := hlt i hold
      simp only
      omega
    · rw [List.mem_singleton] at hnew
      subst hnew
      simp [mkItem]
  · intro i hi hp
    rw [enqueueStep] at hi
    rcases List.mem_append.mp hi with hold | hnew
    · exact hproc i hold hp
    · rw [List.mem_singleton] at hnew
      subst hnew
      exact Status.noConfusion hp

/-- Picking the first queued item preserves the invariant. -/
theorem inv_pick (s : AppState) (h : QueueInv s) : QueueInv (pickStep s) := by
  obtain ⟨hnd, hlt, hproc⟩ := h
  cases hif : s.inFlight with
  | some j => simpa [pickStep, hif] using ⟨hnd, hlt, hproc⟩
  | none =>
    cases hfind : s.items.find? (fun i => i.status == Status.queued) with
    | none => simpa [pickStep, hif, hfind] using ⟨hnd, hlt, hproc⟩
    | some next =>
      simp only [pickStep, hif, hfind]
      refine ⟨?_, ?_, ?_⟩
      · rw [map_ids_of_preserve _ (fun i => by split <;> rfl)]
        exact hnd
      · intro i' hi'
        obtain ⟨i, hi, rfl⟩ := List.mem_map.mp hi'
        have := hlt i hi
        split <;> simpa
      · intro i' hi' hp
        obtain ⟨i, hi, rfl⟩ := List.mem_map.mp hi'
        by_cases hid : (i.id == next.id) = true
        · rw [if_pos hid]
          have heq : i.id = next.id := eq_of_beq hid
          simp [heq]
        · rw [if_neg hid] at hp
          have := hproc i hi hp
          rw [hif] at this
          exact Option.noConfusion this

/-- Landing a successful result on the in-flight id preserves the
invariant. -/
theorem inv_complete (w hgt url : Nat) (s : AppState) (h : QueueInv s) :
    QueueInv (completeStep w hgt url s) := by
  obtain ⟨hnd, hlt, hproc⟩ := h
  cases hif : s.inFlight with
  | none => simpa [completeStep, hif] using ⟨hnd, hlt, hproc⟩
  | some j =>
    simp only [completeStep, hif]
    refine ⟨?_, ?_, ?_⟩
    · rw [map_ids_of_preserve _ (fun i => by split <;> rfl)]
      exact hnd
    · intro i' hi'
      obtain ⟨i, hi, rfl⟩ := List.mem_map.mp hi'
      have := hlt i hi
      split <;> simpa
    · intro i' hi' hp
      obtain ⟨i, hi, rfl⟩ := List.mem_map.mp hi'
      by_cases hid : (i.id == j) = true
      · rw [if_pos hid] at hp
        exact Status.noConfusion hp
      · rw [if_neg hid] at hp
        have hj := hproc i hi hp
        rw [hif, Option.some_inj] at hj
        have : (i.id == j) = true := by rw [beq_iff_eq]; omega
        exact absurd this hid

/-- Landing a failure on the in-flight id preserves the invariant. -/
theorem inv_fail (msg : Str) (s : AppState) (h : QueueInv s) :
    QueueInv (failStep msg s) := by
  obtain ⟨hnd, hlt, hproc⟩ := h
  cases hif : s.inFlight with
  | none => simpa [failStep, hif] using ⟨hnd, hlt, hproc⟩
  | some j =>
    simp only [failStep, hif]
    refine ⟨?_, ?_, ?_⟩
    · rw [map_ids_of_preserve _ (fun i => by split <;> rfl)]
      exact hnd
    · intro i' hi'
      obtain ⟨i, hi, rfl⟩ := List.mem_map.mp hi'
      have := hlt i hi
      split <;> simpa
    · intro i' hi' hp
      obtain ⟨i, hi, rfl⟩ := List.mem_map.mp hi'
      by_cases hid : (i.id == j) = true
      · rw [if_pos hid] at hp
        exact Status.noConfusion hp
      · rw [if_neg hid] at hp
        have hj := hproc i hi hp
        rw [hif, Option.some_inj] at hj
        have : (i.id == j) = true := by rw [beq_iff_eq]; omega
        exact absurd this hid

/-- The palette-mode toggle preserves the invariant. -/
theorem inv_toggle (s : AppState) (h : QueueInv s) : QueueInv (toggleStep s) := by
  obtain ⟨hnd, hlt, hproc⟩ := h
  refine ⟨?_, ?_, ?_⟩
  · rw [toggleStep]
    simp only [modeResetItems]
    rw [map_ids_of_preserve resetItem (fun i => rfl)]
    exact hnd
  · intro i' hi'
    rw [toggleStep] at hi'
    simp only [modeResetItems] at hi'
    obtain ⟨i, hi, rfl⟩ := List.mem_map.mp hi'
    exact hlt i hi
  · intro i' hi' hp
    rw [toggleStep] at hi'
    simp only [modeResetItems] at hi'
    obtain ⟨i, hi, rfl⟩ := List.mem_map.mp hi'
    exact Status.noConfusion hp

/-- Clearing the list preserves the invariant. -/
theorem inv_clear (s : AppState) (_ : QueueInv s) : QueueInv (clearStep s) := by
  refine ⟨by simp [clearStep], ?_, ?_⟩ <;> intro i hi <;> simp [clearStep] at hi

/-- Every reachable state satisfies the invariant. -/
theorem inv_reach : ∀ s : AppState, Reach s → QueueInv s := by
  intro s hr
  induction hr with
  | init => exact inv_init
  | enqueue f _ ih => exact inv_enqueue f _ ih
  | pick _ ih => exact inv_pick _ ih
  | complete w hgt url _ ih => exact inv_complete w hgt url _ ih
  | fail msg _ ih => exact inv_fail msg _ ih
  | toggle _ ih => exact inv_toggle _ ih
  | clear _ ih => exact inv_clear _ ih

/-- **C3**: in every reachable state of the job-queue step relation
(enqueue, pick, complete, fail, mode toggle, clear) at most one item is
in `processing` state. -/
theorem queue_at_most_one_processing :
    ∀ s : AppState, Reach s → procCount s.items ≤ 1 :=
  fun s hr => procCount_le_one s (inv_reach s hr)

/-- Witness for C3 at a reachable state that actually has an item in
`processing` state: enqueue one file, then pick it. -/
theorem queue_at_most_one_processing_witness :
    Reach (pickStep (enqueueStep (FileRec.mk (str "a.png") 0) initState)) ∧
    procCount (pickStep (enqueueStep (FileRec.mk (str "a.png") 0) initState)).items ≤ 1 :=
  ⟨Reach.pick (Reach.enqueue _ Reach.init),
   queue_at_most_one_processing _ (Reach.pick (Reach.enqueue _ Reach.init))⟩

/-! ### Claims about archive ingestion, exports and the mode reset -/

/-- **C4**: archive validation fails with the empty-archive toast when
there is no non-directory entry, with the unsupported-extension toast
when the first entry's extension is unsupported, and with the
mixed-extension toast when some entry's extension differs from the
first's; every failure produces no files at all, and success extracts
exactly one file per entry. -/
theorem handleZip_validation :
    ∀ zipFiles : List ZipEntry,
      (zipFiles.filter (fun e => !e.dir) = [] →
        handleZip zipFiles = Except.error ZipFailure.emptyArchive) ∧
      (∀ e0 rest, zipFiles.filter (fun e => !e.dir) = e0 :: rest →
        (isSupportedExt (extFromName e0.name) = false →
          handleZip zipFiles = Except.error ZipFailure.unsupportedExtension) ∧
        (isSupportedExt (extFromName e0.name) = true →
          (∃ e ∈ e0 :: rest, extFromName e.name ≠ extFromName e0.name) →
          handleZip zipFiles = Except.error ZipFailure.mixedExtension)) ∧
      (∀ err, handleZip zipFiles = Except.error err →
        ∀ fs, ¬ handleZip zipFiles = Except.ok fs) ∧
      (∀ fs, handleZip zipFiles = Except.ok fs →
        fs = (zipFiles.filter (fun e => !e.dir)).map (fun e => FileRec.mk e.name e.content)) := by
  intro zipFiles
  refine ⟨?_, ?_, ?_, ?_⟩
  · intro h
    simp [handleZip, h]
  · intro e0 rest h
    constructor
    · intro hsup
      simp [handleZip, h, hsup]
    · intro hsup hmix
      obtain ⟨e, he, hne⟩ := hmix
      have hany : ((e0 :: rest).any fun e2 => extFromName e2.name != extFromName e0.name) = true :=
        List.any_eq_true.mpr ⟨e, he, by simpa using hne⟩
      simp [handleZip, h, hsup, hany]
  · intro err herr fs hok
    rw [herr] at hok
    exact Except.noConfusion hok
  · intro fs hok
    cases h : zipFiles.filter (fun e => !e.dir) with
    | nil => simp [handleZip, h] at hok
    | cons e0 rest =>
      simp only [handleZip, h] at hok
      split at hok
      · exact Except.noConfusion hok
      · split at hok
        · exact Except.noConfusion hok
        · exact (Except.ok.inj hok).symm

/-- Witness for C4: the empty archive fails with the empty toast, and an
archive mixing `a.png` with `b.jpg` fails with the mixed toast. -/
theorem handleZip_validation_witness :
    handleZip ([] : List ZipEntry) = Except.error ZipFailure.emptyArchive ∧
    handleZip [ZipEntry.mk (str "a.png") false 0, ZipEntry.mk (str "b.jpg") false 1] =
      Except.error ZipFailure.mixedExtension :=
  ⟨(handleZip_validation []).1 rfl,
   ((handleZip_validation
        [ZipEntry.mk (str "a.png") false 0, ZipEntry.mk (str "b.jpg") false 1]).2.1
      (ZipEntry.mk (str "a.png") false 0) [ZipEntry.mk (str "b.jpg") false 1] rfl).2
     (by decide) ⟨ZipEntry.mk (str "b.jpg") false 1, by simp, by decide⟩⟩

/-- **C6**: the palette-mode reset sends every job (whatever its prior
status) back to `queued` with all result fields cleared, and revokes
every previously held result handle. -/
theorem mode_toggle_resets_jobs :
    ∀ (items : List Item) (k : Nat) (i : Item), items[k]? = some i →
      (modeResetItems items)[k]? = some (resetItem i) ∧
      (resetItem i).status = Status.queued ∧
      (resetItem i).blobUrl = none ∧
      (resetItem i).width = none ∧
      (resetItem i).height = none ∧
      (resetItem i).error = none ∧
      (∀ u, i.blobUrl = some u → u ∈ modeResetReleased items) := by
  intro items k i hk
  refine ⟨?_, rfl, rfl, rfl, rfl, rfl, ?_⟩
  · rw [modeResetItems, List.getElem?_map, hk, Option.map_some']
  · intro u hu
    rw [modeResetReleased]
    exact List.mem_filterMap.mpr ⟨i, List.getElem?_mem hk, hu⟩

/-- A sample done job holding a result handle, for concrete checks. -/
def sampleDoneItem : Item :=
  { id := 1, name := str "a.png", ext := str "png",
    file := FileRec.mk (str "a.png") 0, status := Status.done,
    blobUrl := some 7, width := some 2, height := some 2,
    error := none, selected := true }

/-- Witness for C6 at a one-element list whose job is done with result
handle 7: it is re-queued, cleared, and handle 7 is revoked. -/
theorem mode_toggle_resets_jobs_witness :
    ([sampleDoneItem])[0]? = some sampleDoneItem ∧
    (modeResetItems [sampleDoneItem])[0]? = some (resetItem sampleDoneItem) ∧
    (resetItem sampleDoneItem).status = Status.queued ∧
    7 ∈ modeResetReleased [sampleDoneItem] :=
  ⟨rfl,
   (mode_toggle_resets_jobs [sampleDoneItem] 0 sampleDoneItem rfl).1,
   (mode_toggle_resets_jobs [sampleDoneItem] 0 sampleDoneItem rfl).2.1,
   (mode_toggle_resets_jobs [sampleDoneItem] 0 sampleDoneItem rfl).2.2.2.2.2.2 7 rfl⟩

/-- A conditional update that does not touch the selected flag leaves
the selected-flag list unchanged. -/
theorem map_selected_of_preserve (f : Item → Item)
    (hf : ∀ i, (f i).selected = i.selected) (items : List Item) :
    (items.map f).map (fun i => i.selected) = items.map (fun i => i.selected) := by
  rw [List.map_map]
  exact List.map_congr_left fun i _ => hf i

/-- **C9**: the palette-mode reset changes only the status and the
result fields: id, source name, extension, source file and the selected
flag survive it; and the reprocessing steps (pick, complete, fail,
toggle) never change any job's selected flag either. -/
theorem mode_reset_frame_fields :
    (∀ i : Item, (resetItem i).id = i.id ∧ (resetItem i).name = i.name ∧
      (resetItem i).ext = i.ext ∧ (resetItem i).file = i.file ∧
      (resetItem i).selected = i.selected) ∧
    (∀ s : AppState, (pickStep s).items.map (fun i => i.selected) =
        s.items.map (fun i => i.selected)) ∧
    (∀ (w hgt url : Nat) (s : AppState),
      (completeStep w hgt url s).items.map (fun i => i.selected) =
        s.items.map (fun i => i.selected)) ∧
    (∀ (msg : Str) (s : AppState),
      (failStep msg s).items.map (fun i => i.selected) =
        s.items.map (fun i => i.selected)) ∧
    (∀ s : AppState, (toggleStep s).items.map (fun i => i.selected) =
        s.items.map (fun i => i.selected)) := by
  refine ⟨fun i => ⟨rfl, rfl, rfl, rfl, rfl⟩, ?_, ?_, ?_, ?_⟩
  · intro s
    cases hif : s.inFlight with
    | some j => simp [pickStep, hif]
    | none =>
      cases hfind : s.items.find? (fun i => i.status == Status.queued) with
      | none => simp [pickStep, hif, hfind]
      | some next =>
        simp only [pickStep, hif, hfind]
        exact map_selected_of_preserve _ (fun i => by split <;> rfl) s.items
  · intro w hgt url s
    cases hif : s.inFlight with
    | none => simp [completeStep, hif]
    | some j =>
      simp only [completeStep, hif]
      exact map_selected_of_preserve _ (fun i => by split <;> rfl) s.items
  · intro msg s
    cases hif : s.inFlight with
    | none => simp [failStep, hif]
    | some j =>
      simp only [failStep, hif]
      exact map_selected_of_preserve _ (fun i => by split <;> rfl) s.items
  · intro s
    simp only [toggleStep, modeResetItems]
    exact map_selected_of_preserve resetItem (fun i => rfl) s.items

/-- **C8**: both batch exports return without producing any archive when
the job set they operate on is empty. -/
theorem export_empty_guard :
    ∀ (mode : PaletteMode) (items : List Item),
      (selectedItems items = [] → downloadSelectedZip mode items = none) ∧
      (doneItems items = [] → downloadAllZip mode items = none) := by
  intro mode items
  constructor
  · intro h
    simp [downloadSelectedZip, h]
  · intro h
    simp [downloadAllZip, h]

/-- Witness for C8 on the empty job list under dmg mode. -/
theorem export_empty_guard_witness :
    selectedItems [] = [] ∧ downloadSelectedZip PaletteMode.dmg [] = none ∧
    doneItems [] = [] ∧ downloadAllZip PaletteMode.dmg [] = none :=
  ⟨rfl, (export_empty_guard PaletteMode.dmg []).1 rfl, rfl,
   (export_empty_guard PaletteMode.dmg []).2 rfl⟩

/-- **C10**: the nothing-to-convert notice fires exactly when the batch
has no zip and no supported image; and a file that is neither a zip nor
a supported image is silently dropped — it reaches neither the zip
pipeline nor the direct queue. -/
theorem handleFiles_silent_drop :
    ∀ files : List FileRec,
      ((handleFiles files).nothingNotice = true ↔
        ∀ f ∈ files, extFromName f.name ≠ str "zip" ∧
          isSupportedExt (extFromName f.name) = false) ∧
      (∀ f ∈ files, extFromName f.name ≠ str "zip" →
        isSupportedExt (extFromName f.name) = false →
        f ∉ (handleFiles files).zipsHandled ∧
        f ∉ (handleFiles files).imagesEnqueued) := by
  intro files
  constructor
  · simp only [handleFiles]
    by_cases hc : files.filter (fun f => extFromName f.name == str "zip") = [] ∧
        files.filter (fun f => isSupportedExt (extFromName f.name)) = []
    · rw [if_pos hc]
      refine iff_of_true rfl ?_
      intro f hf
      obtain ⟨hz, hi⟩ := hc
      rw [List.filter_eq_nil_iff] at hz hi
      constructor
      · intro he
        exact hz f hf (by simp [he])
      · simpa using hi f hf
    · rw [if_neg hc]
      refine iff_of_false (by simp) ?_
      intro hall
      apply hc
      constructor
      · rw [List.filter_eq_nil_iff]
        intro f hf
        simpa using (hall f hf).1
      · rw [List.filter_eq_nil_iff]
        intro f hf
        simp [(hall f hf).2]
  · intro f hf hz hi
    simp only [handleFiles]
    by_cases hc : files.filter (fun f2 => extFromName f2.name == str "zip") = [] ∧
        files.filter (fun f2 => isSupportedExt (extFromName f2.name)) = []
    · rw [if_pos hc]
      constructor <;> simp
    · rw [if_neg hc]
      constructor
      · intro hmem
        rw [List.mem_filter] at hmem
        exact hz (by simpa using hmem.2)
      · intro hmem
        rw [List.mem_filter] at hmem
        rw [hmem.2] at hi
        exact Bool.noConfusion hi

/-- Witness for C10: in a batch holding `good.png` and `bad.txt`, the
`bad.txt` file is dropped silently (no notice is computed for the
batch, and it reaches neither pipeline). -/
theorem handleFiles_silent_drop_witness :
    (FileRec.mk (str "bad.txt") 1 ∈
      [FileRec.mk (str "good.png") 0, FileRec.mk (str "bad.txt") 1]) ∧
    extFromName (str "bad.txt") ≠ str "zip" ∧
    isSupportedExt (extFromName (str "bad.txt")) = false ∧
    FileRec.mk (str "bad.txt") 1 ∉
      (handleFiles [FileRec.mk (str "good.png") 0, FileRec.mk (str "bad.txt") 1]).zipsHandled ∧
    FileRec.mk (str "bad.txt") 1 ∉
      (handleFiles [FileRec.mk (str "good.png") 0, FileRec.mk (str "bad.txt") 1]).imagesEnqueued :=
  ⟨by simp, by decide, by decide,
   ((handleFiles_silent_drop
       [FileRec.mk (str "good.png") 0, FileRec.mk (str "bad.txt") 1]).2
     (FileRec.mk (str "bad.txt") 1) (by simp) (by decide) (by decide)).1,
   ((handleFiles_silent_drop
       [FileRec.mk (str "good.png") 0, FileRec.mk (str "bad.txt") 1]).2
     (FileRec.mk (str "bad.txt") 1) (by simp) (by decide) (by decide)).2⟩

end Img2Dmg
